import Mathlib

/-!
# Verification of kekupload-lib-ts (`src/index.ts`)

Shallow embedding of the chunked-transfer core of `kekupload-lib-ts`:
`ChunkedUploader`, `FileUploader`, `FileUploaderQueued`, `ChunkedDownloader`,
together with the byte-to-word conversion `array_buffer_to_word_array`.

Conventions of the embedding:
* JS `ArrayBuffer`/`Uint8Array` contents are `List Nat` with every entry `< 256`
  (a `Uint8Array` entry is always a byte).
* A JS out-of-bounds `Uint8Array` read yields `undefined`; the bitwise
  operators in `array_buffer_to_word_array` coerce `undefined` to `0`,
  so such a read is modelled by `List.getD _ _ 0`.
* CryptoJS (an external dependency) is modelled at its documented contract:
  a `WordArray` is a list of 32-bit words plus a significant-byte count, whose
  byte `i` is `(words[i >>> 2] >>> (24 - (i % 4) * 8)) & 0xff`; the streaming
  SHA1 hasher accumulates the bytes of every `update` in order and `finalize`
  hashes the accumulated byte sequence; `CryptoJS.SHA1` hashes the bytes of its
  argument.  The hash function itself is an explicit parameter `H` of the
  model: every theorem below holds for an arbitrary digest function, which is
  exactly the "same algorithm on both sides" contract of the spec.
* Promises are modelled by explicit result values (`Except`, custom result
  types); the Transport (`KekUploadAPI`) is modelled by recording the calls
  made to it and by oracles for the values the remote side returns.
-/

namespace KekUpload

instance {ε α : Type} [DecidableEq ε] [DecidableEq α] :
    DecidableEq (Except ε α) := fun x y =>
  match x, y with
  | .ok a, .ok b =>
    if h : a = b then isTrue (by rw [h]) else isFalse (by simp [h])
  | .error a, .error b =>
    if h : a = b then isTrue (by rw [h]) else isFalse (by simp [h])
  | .ok _, .error _ => isFalse (by simp)
  | .error _, .ok _ => isFalse (by simp)

/-- A CryptoJS `WordArray`: a list of 32-bit words plus a count of
significant bytes. -/
structure WordArray where
  words : List Nat
  sigBytes : Nat
deriving Repr, DecidableEq

/-- One word of `array_buffer_to_word_array`:
`(i8a[i] << 24) | (i8a[i + 1] << 16) | (i8a[i + 2] << 8) | i8a[i + 3]`.
For byte-valued arguments the JS signed-32-bit result has the same 32-bit
pattern as this natural number. -/
def packWord (a b c d : Nat) : Nat :=
  a <<< 24 ||| b <<< 16 ||| c <<< 8 ||| d

/-- The word list built by the loop
`for (let i = 0; i < i8a.length; i += 4) a.push(...)` in
`array_buffer_to_word_array`: one word per four bytes, out-of-bounds
reads contributing `0`. -/
def bytesToWords : List Nat → List Nat
  | [] => []
  | [b0] => [packWord b0 0 0 0]
  | [b0, b1] => [packWord b0 b1 0 0]
  | [b0, b1, b2] => [packWord b0 b1 b2 0]
  | b0 :: b1 :: b2 :: b3 :: rest => packWord b0 b1 b2 b3 :: bytesToWords rest

/-- Model of `array_buffer_to_word_array` (src/index.ts lines 3-10):
builds the word list four bytes at a time and records the true byte
length as `sigBytes` via `WordArray.create(a, i8a.length)`. -/
def array_buffer_to_word_array (ab : List Nat) : WordArray :=
  ⟨bytesToWords ab, ab.length⟩

/-- The byte sequence a CryptoJS `WordArray` denotes: byte `i` is
`(words[i >>> 2] >>> (24 - (i % 4) * 8)) & 0xff`, for `i < sigBytes`. -/
def wordArrayToBytes (wa : WordArray) : List Nat :=
  (List.range wa.sigBytes).map fun i =>
    wa.words.getD (i / 4) 0 >>> (24 - i % 4 * 8) &&& 255

theorem packWord_eq (a b c d : Nat) (_ha : a < 256) (hb : b < 256)
    (hc : c < 256) (hd : d < 256) :
    packWord a b c d = ((a * 256 + b) * 256 + c) * 256 + d := by
  have h1 : c <<< 8 ||| d = 2 ^ 8 * c + d := by
    rw [Nat.shiftLeft_eq, Nat.mul_comm, ← Nat.mul_add_lt_is_or]
    exact hd
  have h2 : b <<< 16 ||| (2 ^ 8 * c + d) = 2 ^ 16 * b + (2 ^ 8 * c + d) := by
    rw [Nat.shiftLeft_eq, Nat.mul_comm, ← Nat.mul_add_lt_is_or]
    have : (2 : Nat) ^ 16 = 65536 := by norm_num
    omega
  have h3 : a <<< 24 ||| (2 ^ 16 * b + (2 ^ 8 * c + d)) =
      2 ^ 24 * a + (2 ^ 16 * b + (2 ^ 8 * c + d)) := by
    rw [Nat.shiftLeft_eq, Nat.mul_comm, ← Nat.mul_add_lt_is_or]
    have : (2 : Nat) ^ 24 = 16777216 := by norm_num
    omega
  calc packWord a b c d
      = a <<< 24 ||| (b <<< 16 ||| (c <<< 8 ||| d)) := by
        simp only [packWord, Nat.or_assoc]
    _ = ((a * 256 + b) * 256 + c) * 256 + d := by
        rw [h1, h2, h3]
        have e8 : (2 : Nat) ^ 8 = 256 := by norm_num
        have e16 : (2 : Nat) ^ 16 = 65536 := by norm_num
        have e24 : (2 : Nat) ^ 24 = 16777216 := by norm_num
        rw [e8, e16, e24]
        ring

theorem packWord_byte (a b c d r : Nat) (ha : a < 256) (hb : b < 256)
    (hc : c < 256) (hd : d < 256) (hr : r < 4) :
    packWord a b c d >>> (24 - r * 8) &&& 255 = [a, b, c, d].getD r 0 := by
  rw [packWord_eq a b c d ha hb hc hd, Nat.shiftRight_eq_div_pow]
  have h255 : (255 : Nat) = 2 ^ 8 - 1 := by norm_num
  rw [h255, Nat.and_pow_two_sub_one_eq_mod]
  interval_cases r <;> simp [List.getD] <;> omega

theorem packWord_zero : packWord 0 0 0 0 = 0 := rfl

theorem getD_cons4 (l : List Nat) (a b c d : Nat) (n : Nat) :
    (a :: b :: c :: d :: l).getD (n + 4) 0 = l.getD n 0 := by
  simp [List.getD]

theorem bytesToWords_getD (j : Nat) (ab : List Nat) :
    (bytesToWords ab).getD j 0 =
      packWord (ab.getD (4 * j) 0) (ab.getD (4 * j + 1) 0)
        (ab.getD (4 * j + 2) 0) (ab.getD (4 * j + 3) 0) := by
  induction j generalizing ab with
  | zero =>
    match ab with
    | [] => simp [bytesToWords, packWord]
    | [b0] => simp [bytesToWords, List.getD]
    | [b0, b1] => simp [bytesToWords, List.getD]
    | [b0, b1, b2] => simp [bytesToWords, List.getD]
    | b0 :: b1 :: b2 :: b3 :: rest => simp [bytesToWords, List.getD]
  | succ j ih =>
    have short : ∀ l : List Nat, l.length ≤ 4 →
        packWord (l.getD (4 * (j + 1)) 0) (l.getD (4 * (j + 1) + 1) 0)
          (l.getD (4 * (j + 1) + 2) 0) (l.getD (4 * (j + 1) + 3) 0) = 0 := by
      intro l hl
      rw [List.getD_eq_default _ _ (by omega), List.getD_eq_default _ _ (by omega),
        List.getD_eq_default _ _ (by omega), List.getD_eq_default _ _ (by omega)]
      exact packWord_zero
    match ab with
    | [] => rw [short [] (by simp)]; simp [bytesToWords]
    | [b0] => rw [short [b0] (by simp)]; simp [bytesToWords, List.getD]
    | [b0, b1] => rw [short [b0, b1] (by simp)]; simp [bytesToWords, List.getD]
    | [b0, b1, b2] =>
      rw [short [b0, b1, b2] (by simp)]; simp [bytesToWords, List.getD]
    | b0 :: b1 :: b2 :: b3 :: rest =>
      have e0 : 4 * (j + 1) = 4 * j + 4 := by omega
      have e1 : 4 * j + 4 + 1 = (4 * j + 1) + 4 := by omega
      have e2 : 4 * j + 4 + 2 = (4 * j + 2) + 4 := by omega
      have e3 : 4 * j + 4 + 3 = (4 * j + 3) + 4 := by omega
      calc (bytesToWords (b0 :: b1 :: b2 :: b3 :: rest)).getD (j + 1) 0
          = (bytesToWords rest).getD j 0 := by simp [bytesToWords, List.getD]
        _ = packWord (rest.getD (4 * j) 0) (rest.getD (4 * j + 1) 0)
              (rest.getD (4 * j + 2) 0) (rest.getD (4 * j + 3) 0) := ih rest
        _ = _ := by rw [e0, e1, e2, e3, getD_cons4, getD_cons4, getD_cons4, getD_cons4]

theorem getD_lt_256 (ab : List Nat) (h : ∀ b ∈ ab, b < 256) (i : Nat) :
    ab.getD i 0 < 256 := by
  rcases h9 : ab[i]? with _ | b
  · simp [List.getD_eq_getElem?_getD, h9]
  · have hb : b ∈ ab := List.getElem?_mem h9
    simp only [List.getD_eq_getElem?_getD, h9, Option.getD_some]
    exact h b hb

/-- Round trip: the CryptoJS byte view of the `WordArray` built by
`array_buffer_to_word_array` is exactly the original byte sequence.
This is the sense in which the conversion is lossless. -/
theorem wordArrayToBytes_array_buffer_to_word_array (ab : List Nat)
    (h : ∀ b ∈ ab, b < 256) :
    wordArrayToBytes (array_buffer_to_word_array ab) = ab := by
  apply List.ext_getElem
  · simp [wordArrayToBytes, array_buffer_to_word_array]
  · intro i h1 h2
    simp only [wordArrayToBytes, array_buffer_to_word_array,
      List.getElem_map, List.getElem_range]
    rw [bytesToWords_getD]
    have hb0 := getD_lt_256 ab h (4 * (i / 4))
    have hb1 := getD_lt_256 ab h (4 * (i / 4) + 1)
    have hb2 := getD_lt_256 ab h (4 * (i / 4) + 2)
    have hb3 := getD_lt_256 ab h (4 * (i / 4) + 3)
    rw [packWord_byte _ _ _ _ _ hb0 hb1 hb2 hb3 (Nat.mod_lt _ (by norm_num))]
    have hlen : i < ab.length := by
      simpa [wordArrayToBytes, array_buffer_to_word_array] using h1
    have hmod : i % 4 = 0 ∨ i % 4 = 1 ∨ i % 4 = 2 ∨ i % 4 = 3 := by omega
    rcases hmod with hm | hm | hm | hm
    · have hi : 4 * (i / 4) = i := by omega
      rw [hm]
      simp only [List.getD, List.getElem?_cons_zero, Option.getD_some]
      rw [hi]
      simp [List.getD_eq_getElem?_getD, List.getElem?_eq_getElem hlen]
    · have hi : 4 * (i / 4) + 1 = i := by omega
      rw [hm]
      simp only [List.getD, List.getElem?_cons_succ, List.getElem?_cons_zero,
        Option.getD_some]
      rw [hi]
      simp [List.getD_eq_getElem?_getD, List.getElem?_eq_getElem hlen]
    · have hi : 4 * (i / 4) + 2 = i := by omega
      rw [hm]
      simp only [List.getD, List.getElem?_cons_succ, List.getElem?_cons_zero,
        Option.getD_some]
      rw [hi]
      simp [List.getD_eq_getElem?_getD, List.getElem?_eq_getElem hlen]
    · have hi : 4 * (i / 4) + 3 = i := by omega
      rw [hm]
      simp only [List.getD, List.getElem?_cons_succ, List.getElem?_cons_zero,
        Option.getD_some]
      rw [hi]
      simp [List.getD_eq_getElem?_getD, List.getElem?_eq_getElem hlen]

/-! ## ChunkedUploader (src/index.ts lines 88-203)

The Transport (`KekUploadAPI`) is modelled by recording every call the
uploader makes to it, plus oracles for the values the remote side returns
(`streamFromServer`, `idFromServer`) and for how often a retried call fails.
The digest is the explicit parameter `H`: the streaming hasher state is the
byte sequence fed to it since the last `reset`, `finalize` applies `H` to
that sequence, and the one-shot `CryptoJS.SHA1` applies `H` to the byte view
of its `WordArray` argument — the "same algorithm" contract of the library. -/

/-- One call made to the Transport. The stream argument of an upload call is
recorded as the uploader's `stream` field at call time (`this.stream as
string`; a JS `as` cast does not fail on `undefined`). -/
inductive TransportCall where
  | create (ext : String) (name : Option String)
  | uploadChunk (stream : Option String) (hash : String) (chunk : List Nat)
  | finishStream (stream : String) (hash : String)
  | removeStream (stream : String)
deriving Repr, DecidableEq

/-- State of a `ChunkedUploader`: the optional stream handle and the bytes fed to
the running SHA1 hasher since its last reset. -/
structure UploaderState where
  stream : Option String
  hasherBytes : List Nat
deriving Repr, DecidableEq

/-- A freshly constructed `ChunkedUploader`: no stream, fresh hasher. -/
def initialUploader : UploaderState := ⟨none, []⟩

/-- Model of `CryptoJS.SHA1(word_array).toString()` for digest function `H`. -/
def oneShotHash (H : List Nat → String) (wa : WordArray) : String :=
  H (wordArrayToBytes wa)

/-- Model of `ChunkedUploader.begin` (lines 120-124), successful case: resets the
hasher and stores the handle returned by `api.create`. -/
def ChunkedUploader.begin (ext : String) (name : Option String)
    (streamFromServer : String) (_st : UploaderState) :
    UploaderState × List TransportCall :=
  (⟨some streamFromServer, []⟩, [.create ext name])

structure UploadResult where
  result : Except String String
  state : UploaderState
  calls : List TransportCall
deriving Repr

/-- Model of `ChunkedUploader.upload` (lines 146-164), translated faithfully including
the missing `return` after `reject(...)`: when `stream` is undefined the
promise is rejected with the not-initialized message, but the executor falls
through, so the chunk hash is still computed, the running hasher is still
updated, and the `while (true)` retry loop still issues Transport calls.
`failures` is the oracle for how many Transport upload calls fail before one
succeeds; the loop then has made `failures + 1` calls. -/
def ChunkedUploader.upload (H : List Nat → String) (failures : Nat)
    (st : UploaderState) (chunk : List Nat) : UploadResult :=
  let wa := array_buffer_to_word_array chunk
  let hash := oneShotHash H wa
  { result :=
      if st.stream = none then
        .error "Stream not initialized. Have you ran begin yet?"
      else .ok hash
    state := { st with hasherBytes := st.hasherBytes ++ wordArrayToBytes wa }
    calls := List.replicate (failures + 1) (.uploadChunk st.stream hash chunk) }

structure FinishResult where
  result : Except String (String × String)
  state : UploaderState
  calls : List TransportCall
deriving Repr

/-- Model of `ChunkedUploader.finish` (lines 177-185): throws not-initialized before
any Transport call when `stream` is unset; otherwise finalizes the running
hasher to `hash`, calls `api.finish(stream, hash)`, and returns
`(id, hash)` with `id` the remote response (oracle `idFromServer`). -/
def ChunkedUploader.finish (H : List Nat → String) (idFromServer : String)
    (st : UploaderState) : FinishResult :=
  match st.stream with
  | none =>
    { result := .error "Stream not initialized. Have you ran begin yet?"
      state := st, calls := [] }
  | some s =>
    let hash := H st.hasherBytes
    { result := .ok (idFromServer, hash), state := st
      calls := [.finishStream s hash] }

/-- Model of `ChunkedUploader.destroy` (lines 197-202): throws not-initialized before
any Transport call when `stream` is unset; otherwise calls `api.remove`,
whose failure (oracle `removeFails`) propagates to the caller. -/
def ChunkedUploader.destroy (removeFails : Bool) (st : UploaderState) :
    Except String Unit × List TransportCall :=
  match st.stream with
  | none => (.error "Stream not initialized. Have you ran begin yet?", [])
  | some s =>
    (if removeFails then .error "remove failed" else .ok (), [.removeStream s])

/-- Upload a sequence of chunks in order (each awaited before the next, as
`FileUploader.upload_file` does). Retry counts do not affect the uploader
state, so they are fixed to 0 here. -/
def uploadAll (H : List Nat → String) (st : UploaderState)
    (chunks : List (List Nat)) : UploaderState :=
  chunks.foldl (fun s c => (ChunkedUploader.upload H 0 s c).state) st

theorem uploadAll_stream (H : List Nat → String) (st : UploaderState)
    (chunks : List (List Nat)) : (uploadAll H st chunks).stream = st.stream := by
  induction chunks generalizing st with
  | nil => rfl
  | cons c rest ih =>
    calc (uploadAll H st (c :: rest)).stream
        = (uploadAll H (ChunkedUploader.upload H 0 st c).state rest).stream := rfl
      _ = (ChunkedUploader.upload H 0 st c).state.stream := ih _
      _ = st.stream := rfl

theorem uploadAll_hasherBytes (H : List Nat → String) (st : UploaderState)
    (chunks : List (List Nat)) (h : ∀ c ∈ chunks, ∀ b ∈ c, b < 256) :
    (uploadAll H st chunks).hasherBytes = st.hasherBytes ++ chunks.flatten := by
  induction chunks generalizing st with
  | nil => simp [uploadAll]
  | cons c rest ih =>
    have hc : ∀ b ∈ c, b < 256 := h c (by simp)
    have hrest : ∀ c' ∈ rest, ∀ b ∈ c', b < 256 := fun c' hc' => h c' (by simp [hc'])
    have : (ChunkedUploader.upload H 0 st c).state.hasherBytes
        = st.hasherBytes ++ c := by
      simp [ChunkedUploader.upload,
        wordArrayToBytes_array_buffer_to_word_array c hc]
    calc (uploadAll H st (c :: rest)).hasherBytes
        = (uploadAll H (ChunkedUploader.upload H 0 st c).state rest).hasherBytes := rfl
      _ = (ChunkedUploader.upload H 0 st c).state.hasherBytes ++ rest.flatten :=
          ih _ hrest
      _ = st.hasherBytes ++ (c :: rest).flatten := by
          rw [this]; simp

/-- C1: After a successful `begin` and a sequence of `upload` calls, the
whole-stream hash returned by `finish()` equals the one-shot hash — same
digest function `H`, same byte-to-word conversion
`array_buffer_to_word_array` — of the concatenation of the uploaded chunks'
bytes in upload order. -/
theorem finish_hash_eq_one_shot_of_concat (H : List Nat → String)
    (ext streamFromServer idFromServer : String) (name : Option String)
    (chunks : List (List Nat)) (h : ∀ c ∈ chunks, ∀ b ∈ c, b < 256) :
    (ChunkedUploader.finish H idFromServer
        (uploadAll H
          (ChunkedUploader.begin ext name streamFromServer initialUploader).1
          chunks)).result
      = .ok (idFromServer, oneShotHash H (array_buffer_to_word_array chunks.flatten)) := by
  have hflat : ∀ b ∈ chunks.flatten, b < 256 := by
    intro b hb
    rcases List.mem_flatten.1 hb with ⟨c, hc, hbc⟩
    exact h c hc b hbc
  have hstream : (uploadAll H
      (ChunkedUploader.begin ext name streamFromServer initialUploader).1
      chunks).stream = some streamFromServer :=
    uploadAll_stream H _ chunks
  have hbytes : (uploadAll H
      (ChunkedUploader.begin ext name streamFromServer initialUploader).1
      chunks).hasherBytes = chunks.flatten := by
    simpa [ChunkedUploader.begin] using
      uploadAll_hasherBytes H
        (ChunkedUploader.begin ext name streamFromServer initialUploader).1 chunks h
  rcases h0 : (uploadAll H
      (ChunkedUploader.begin ext name streamFromServer initialUploader).1
      chunks) with ⟨stream, bytes⟩
  rw [h0] at hstream hbytes
  simp only at hstream hbytes
  subst hstream hbytes
  simp [ChunkedUploader.finish, oneShotHash,
    wordArrayToBytes_array_buffer_to_word_array _ hflat]

/-- Witness for C1 at a concrete input: two chunks, digest function the
decimal rendering of the byte sequence. -/
theorem finish_hash_eq_one_shot_of_concat_witness :
    (∀ c ∈ [[1, 2, 3, 4, 5], [6, 7]], ∀ b ∈ c, b < 256)
      ∧ (ChunkedUploader.finish (fun l => toString l) "theId"
          (uploadAll (fun l => toString l)
            (ChunkedUploader.begin "txt" none "s1" initialUploader).1
            [[1, 2, 3, 4, 5], [6, 7]])).result
        = .ok ("theId",
            oneShotHash (fun l => toString l)
              (array_buffer_to_word_array [[1, 2, 3, 4, 5], [6, 7]].flatten)) :=
  ⟨by decide,
   finish_hash_eq_one_shot_of_concat (fun l => toString l) "txt" "s1" "theId"
     none [[1, 2, 3, 4, 5], [6, 7]] (by decide)⟩

/-- C2, evaluated at the failing input: on a fresh (never-`begun`)
uploader, `upload([1, 2, 3])` does reject with the not-initialized message,
but — because the executor keeps running after `reject(...)` — it still
updates the running hasher with the chunk bytes and still issues a Transport
upload call; `finish` and `destroy`, by contrast, fail before any Transport
call and leave the hasher untouched. -/
theorem upload_before_begin_still_calls_transport :
    (ChunkedUploader.upload (fun _ => "") 0 initialUploader [1, 2, 3]).result
        = .error "Stream not initialized. Have you ran begin yet?"
      ∧ (ChunkedUploader.upload (fun _ => "") 0 initialUploader
          [1, 2, 3]).state.hasherBytes = [1, 2, 3]
      ∧ (ChunkedUploader.upload (fun _ => "") 0 initialUploader
          [1, 2, 3]).calls
        = [.uploadChunk none "" [1, 2, 3]]
      ∧ (ChunkedUploader.finish (fun _ => "") "id" initialUploader).calls = []
      ∧ (ChunkedUploader.finish (fun _ => "") "id" initialUploader).state
        = initialUploader
      ∧ (ChunkedUploader.destroy false initialUploader).2 = [] :=
  ⟨rfl, by decide, by decide, rfl, rfl, rfl⟩

/-! ## ChunkedDownloader (src/index.ts lines 456-542)

JS numbers holding byte counts are modelled as `Int` (the `length` field is
initialized to `-1`); requested pull sizes are `Nat`.  `api.length` is
modelled by the oracle `sizeFromServer`; `api.download_chunk(id, offset,
size)` is modelled as returning a buffer of exactly the requested `size`
bytes, and the pull result records that count. -/

structure DownloaderState where
  id : Option String
  length : Int
  offset : Int
deriving Repr, DecidableEq

/-- A freshly constructed `ChunkedDownloader`: `id` undefined,
`length = -1`, `offset = 0`. -/
def initialDownloader : DownloaderState := ⟨none, -1, 0⟩

/-- Model of `ChunkedDownloader.begin` (lines 488-492), successful case. -/
def ChunkedDownloader.begin (idArg : String) (sizeFromServer : Nat)
    (_st : DownloaderState) : DownloaderState :=
  ⟨some idArg, (sizeFromServer : Int), 0⟩

/-- Model of `ChunkedDownloader.remaining` (lines 513-515): `length - offset`. -/
def ChunkedDownloader.remaining (st : DownloaderState) : Int :=
  st.length - st.offset

structure PullResult where
  result : Except String Int
  state : DownloaderState
deriving Repr

instance : DecidableEq PullResult := fun x y =>
  match x, y with
  | ⟨r1, s1⟩, ⟨r2, s2⟩ =>
    if h : r1 = r2 ∧ s1 = s2 then isTrue (by rw [h.1, h.2])
    else isFalse (by intro he; cases he; exact h ⟨rfl, rfl⟩)

/-- Model of `ChunkedDownloader.pull` (lines 530-541): clamps the requested size to
`remaining()`, then (after the id check) downloads that many bytes and
advances `offset` by the clamped size. -/
def ChunkedDownloader.pull (st : DownloaderState) (size : Nat) : PullResult :=
  let r := ChunkedDownloader.remaining st
  let clamped : Int := if (size : Int) > r then r else (size : Int)
  match st.id with
  | none =>
    { result := .error "Id is undefined. Have you ran begin yet?", state := st }
  | some _ =>
    { result := .ok clamped, state := { st with offset := st.offset + clamped } }

/-- Run a sequence of `pull` calls, keeping only the state. -/
def pullAll (st : DownloaderState) (sizes : List Nat) : DownloaderState :=
  sizes.foldl (fun s n => (ChunkedDownloader.pull s n).state) st

/-- Total number of bytes returned across a sequence of `pull` calls. -/
def pullAllReturned (st : DownloaderState) : List Nat → Int
  | [] => 0
  | n :: rest =>
    let p := ChunkedDownloader.pull st n
    (match p.result with | .ok k => k | .error _ => 0) + pullAllReturned p.state rest

/-- The downloader invariant after a successful `begin` for length `L`. -/
def DownInv (L : Int) (st : DownloaderState) : Prop :=
  st.id ≠ none ∧ st.length = L ∧ 0 ≤ st.offset ∧ st.offset ≤ L

theorem pull_state_eq (st : DownloaderState) (n : Nat) (i : String)
    (hst : st.id = some i) :
    (ChunkedDownloader.pull st n).state
      = { st with offset := st.offset +
          (if (n : Int) > st.length - st.offset then st.length - st.offset
           else (n : Int)) } := by
  simp [ChunkedDownloader.pull, ChunkedDownloader.remaining, hst]

theorem pull_result_eq (st : DownloaderState) (n : Nat) (i : String)
    (hst : st.id = some i) :
    (ChunkedDownloader.pull st n).result
      = .ok (if (n : Int) > st.length - st.offset then st.length - st.offset
             else (n : Int)) := by
  simp [ChunkedDownloader.pull, ChunkedDownloader.remaining, hst]

theorem pull_preserves_inv (L : Int) (st : DownloaderState) (n : Nat)
    (h : DownInv L st) : DownInv L (ChunkedDownloader.pull st n).state := by
  obtain ⟨hid, hlen, h0, hL⟩ := h
  rcases hst : st.id with _ | i
  · exact absurd hst hid
  · rw [pull_state_eq st n i hst]
    refine ⟨by simp [hst], by simp [hlen], ?_, ?_⟩ <;>
      · simp only
        split <;> omega

theorem pullAll_inv (L : Int) (st : DownloaderState) (sizes : List Nat)
    (h : DownInv L st) : DownInv L (pullAll st sizes) := by
  induction sizes generalizing st with
  | nil => exact h
  | cons n rest ih => exact ih _ (pull_preserves_inv L st n h)

theorem pullAllReturned_eq_offset (L : Int) (st : DownloaderState)
    (sizes : List Nat) (h : DownInv L st) :
    pullAllReturned st sizes = (pullAll st sizes).offset - st.offset := by
  induction sizes generalizing st with
  | nil => simp [pullAllReturned, pullAll]
  | cons n rest ih =>
    have hnext := ih (ChunkedDownloader.pull st n).state
      (pull_preserves_inv L st n h)
    obtain ⟨hid, hlen, h0, hL⟩ := h
    rcases hst : st.id with _ | i
    · exact absurd hst hid
    have hres : (ChunkedDownloader.pull st n).result
        = .ok ((ChunkedDownloader.pull st n).state.offset - st.offset) := by
      rw [pull_result_eq st n i hst, pull_state_eq st n i hst]
      simp only [Except.ok.injEq]
      ring
    calc pullAllReturned st (n :: rest)
        = (match (ChunkedDownloader.pull st n).result with
            | .ok k => k | .error _ => 0)
          + pullAllReturned (ChunkedDownloader.pull st n).state rest := rfl
      _ = ((ChunkedDownloader.pull st n).state.offset - st.offset)
          + ((pullAll (ChunkedDownloader.pull st n).state rest).offset
             - (ChunkedDownloader.pull st n).state.offset) := by
          rw [hres, hnext]
      _ = (pullAll st (n :: rest)).offset - st.offset := by
          have hstep : pullAll st (n :: rest)
              = pullAll (ChunkedDownloader.pull st n).state rest := rfl
          rw [hstep]
          ring

/-- C6: After a successful `begin(id)` for an artifact of total length
`L` and any sequence of `pull` calls: `remaining()` equals `L` minus the
current offset and is never negative; a further `pull(size)` with
`size > remaining()` returns exactly `remaining()` bytes and leaves
`remaining()` at `0`; and once the total bytes returned reach `L`,
`remaining()` is `0`. -/
theorem downloader_remaining_invariant (idArg : String) (L : Nat)
    (sizes : List Nat) (size : Nat) :
    ChunkedDownloader.remaining
        (pullAll (ChunkedDownloader.begin idArg L initialDownloader) sizes)
      = (L : Int)
        - (pullAll (ChunkedDownloader.begin idArg L initialDownloader) sizes).offset
    ∧ 0 ≤ ChunkedDownloader.remaining
        (pullAll (ChunkedDownloader.begin idArg L initialDownloader) sizes)
    ∧ ((size : Int) > ChunkedDownloader.remaining
          (pullAll (ChunkedDownloader.begin idArg L initialDownloader) sizes) →
        (ChunkedDownloader.pull
            (pullAll (ChunkedDownloader.begin idArg L initialDownloader) sizes)
            size).result
          = .ok (ChunkedDownloader.remaining
              (pullAll (ChunkedDownloader.begin idArg L initialDownloader) sizes))
        ∧ ChunkedDownloader.remaining
            (ChunkedDownloader.pull
              (pullAll (ChunkedDownloader.begin idArg L initialDownloader) sizes)
              size).state = 0)
    ∧ (pullAllReturned (ChunkedDownloader.begin idArg L initialDownloader) sizes
          = (L : Int) →
        ChunkedDownloader.remaining
          (pullAll (ChunkedDownloader.begin idArg L initialDownloader) sizes) = 0) := by
  have hinv0 : DownInv (L : Int) (ChunkedDownloader.begin idArg L initialDownloader) :=
    ⟨by simp [ChunkedDownloader.begin], rfl, le_refl 0, Int.natCast_nonneg L⟩
  have hinv := pullAll_inv (L : Int)
    (ChunkedDownloader.begin idArg L initialDownloader) sizes hinv0
  obtain ⟨hid, hlen, h0, hL⟩ := hinv
  rcases hst : (pullAll (ChunkedDownloader.begin idArg L initialDownloader) sizes).id
    with _ | i
  · exact absurd hst hid
  · refine ⟨?_, ?_, ?_, ?_⟩
    · simp only [ChunkedDownloader.remaining, hlen]
    · simp only [ChunkedDownloader.remaining, hlen]
      omega
    · intro hgt
      simp only [ChunkedDownloader.remaining] at hgt
      constructor
      · rw [pull_result_eq _ size i hst]
        simp only [ChunkedDownloader.remaining, Except.ok.injEq]
        rw [if_pos hgt]
      · simp only [ChunkedDownloader.remaining, pull_state_eq _ size i hst]
        rw [if_pos hgt]
        omega
    · intro htot
      have hret := pullAllReturned_eq_offset (L : Int)
        (ChunkedDownloader.begin idArg L initialDownloader) sizes hinv0
      rw [htot] at hret
      have hoff0 : (ChunkedDownloader.begin idArg L initialDownloader).offset = 0 := rfl
      rw [hoff0] at hret
      simp only [ChunkedDownloader.remaining, hlen]
      omega

/-- Witness for C6: artifact of length 10; after pulls of 4 and 3 a pull of
9 is clamped to the remaining 3 bytes; after pulls of 4, 3, 9 the total
returned is 10 and `remaining()` is 0. -/
theorem downloader_remaining_invariant_witness :
    ((9 : Nat) : Int) > ChunkedDownloader.remaining
        (pullAll (ChunkedDownloader.begin "f" 10 initialDownloader) [4, 3])
    ∧ (ChunkedDownloader.pull
          (pullAll (ChunkedDownloader.begin "f" 10 initialDownloader) [4, 3])
          9).result
        = .ok (ChunkedDownloader.remaining
            (pullAll (ChunkedDownloader.begin "f" 10 initialDownloader) [4, 3]))
    ∧ ChunkedDownloader.remaining
        (ChunkedDownloader.pull
          (pullAll (ChunkedDownloader.begin "f" 10 initialDownloader) [4, 3])
          9).state = 0
    ∧ pullAllReturned (ChunkedDownloader.begin "f" 10 initialDownloader)
        [4, 3, 9] = (10 : Int)
    ∧ ChunkedDownloader.remaining
        (pullAll (ChunkedDownloader.begin "f" 10 initialDownloader) [4, 3, 9]) = 0 :=
  ⟨by decide,
   ((downloader_remaining_invariant "f" 10 [4, 3] 9).2.2.1 (by decide)).1,
   ((downloader_remaining_invariant "f" 10 [4, 3] 9).2.2.1 (by decide)).2,
   by decide,
   (downloader_remaining_invariant "f" 10 [4, 3, 9] 1).2.2.2 (by decide)⟩

/-! ## FileUploader (src/index.ts lines 210-328)

`upload_file` drives the two-level chunking loops.  Byte ranges are
represented by their sizes: the loop bounds, the slice/chunk sizes and the
progress fractions depend only on `file.size`, `read_size` and `chunk_size`
(chunk contents never influence control flow; the content-faithful model of
a single chunk upload is `ChunkedUploader.upload` above).  Cooperative
cancellation is modelled by the oracle `cancelAt`: `some c` means the
pending-cancellation marker `cancel_cb` is set from the `c`-th per-chunk
checkpoint on (a `cancel()` call arriving while chunk `c - 1` was being
awaited, or before the first checkpoint for `c = 0`). -/

/-- Model of `options.read_size || 33554432` (line 232): JS `||` sends both an unset
option and an explicit `0` to the 32 MiB default. -/
def resolve_read_size : Option Nat → Nat
  | none => 33554432
  | some n => if n = 0 then 33554432 else n

/-- Model of `options.chunk_size || 2097152` (line 234): 2 MiB default. -/
def resolve_chunk_size : Option Nat → Nat
  | none => 2097152
  | some n => if n = 0 then 2097152 else n

/-- The offsets visited by a JS loop `for (let x = 0; x < len; x += step)`
for `step > 0`: `0, step, 2*step, ...`, one per iteration, `⌈len/step⌉`
iterations in total. -/
def loopOffsets (len step : Nat) : List Nat :=
  (List.range ((len + step - 1) / step)).map (· * step)

/-- Sizes of the outer slice reads `file.slice(i, i + read_size)` (line 266):
`File.slice` clamps the end to the file size. -/
def sliceReads (read_size fsize : Nat) : List Nat :=
  (loopOffsets fsize read_size).map fun i => min (i + read_size) fsize - i

/-- The per-chunk checkpoints of `upload_file` in execution order:
`(i, sliceLen, f)` for each outer offset `i` and inner offset `f` within the
materialized slice of length `sliceLen` (lines 263-289). -/
def checkpoints (read_size chunk_size fsize : Nat) : List (Nat × Nat × Nat) :=
  (loopOffsets fsize read_size).flatMap fun i =>
    let sliceLen := min (i + read_size) fsize - i
    (loopOffsets sliceLen chunk_size).map fun f => (i, sliceLen, f)

inductive UFResult where
  /-- All outer iterations completed; `upload_file` resolves. -/
  | success
  /-- A pending cancellation was observed and `destroy()` succeeded;
  `upload_file` rejects with "CANCELLED". -/
  | cancelled
  /-- A pending cancellation was observed and `destroy()` rejected;
  `.catch()` with no handler does not suppress the rejection, the `onload`
  async function aborts before `reject("CANCELLED")`, and the promise
  wrapping the slice read never settles: `upload_file` hangs. -/
  | hung
deriving Repr, DecidableEq

structure UFOutcome where
  result : UFResult
  /-- The `uploading` flag when `upload_file` exits (or hangs). -/
  uploading : Bool
  /-- The `cancel_cb` slot when `upload_file` exits (or hangs). -/
  cancel_cb : Bool
  /-- Sizes of the chunks passed to `upload`, in order. -/
  chunkSizes : List Nat
  /-- Arguments of the `on_progress` calls, in order (exact rationals). -/
  progress : List ℚ
  /-- Number of `destroy()` calls made. -/
  destroyCalls : Nat
  /-- Whether the pending `cancel()` promise was resolved. -/
  cancelResolved : Bool
deriving Repr, DecidableEq

/-- The inner-loop body of `upload_file` at each checkpoint, global
checkpoint index `k` (lines 272-289): report progress `(i + f) / file.size`,
then honour a pending cancellation (destroy → reject "CANCELLED" → resolve
the stored `cancel_cb` → clear it → return), else slice out the chunk
`result.slice(f, f + chunk_size)` and upload it. On normal completion of
all iterations the final `this.uploading = false` (line 298) runs. -/
def runChunks (chunk_size fsize : Nat) (cancelAt : Option Nat)
    (destroyFails : Bool) : List (Nat × Nat × Nat) → Nat → UFOutcome
  | [], _ => ⟨.success, false, false, [], [], 0, false⟩
  | (i, sliceLen, f) :: rest, k =>
    let prog : ℚ := ((i : ℚ) + (f : ℚ)) / (fsize : ℚ)
    let pending := match cancelAt with | none => false | some c => c ≤ k
    if pending then
      if destroyFails then ⟨.hung, true, true, [], [prog], 1, false⟩
      else ⟨.cancelled, true, false, [], [prog], 1, true⟩
    else
      let chunkLen := min (f + chunk_size) sliceLen - f
      let o := runChunks chunk_size fsize cancelAt destroyFails rest (k + 1)
      ⟨o.result, o.uploading, o.cancel_cb, chunkLen :: o.chunkSizes,
        prog :: o.progress, o.destroyCalls, o.cancelResolved⟩

/-- Model of `FileUploader.upload_file` (lines 260-299): sets `uploading := true`,
runs the two-level loops over all checkpoints, and clears `uploading` only
on normal completion. -/
def FileUploader.upload_file (read_size chunk_size fsize : Nat)
    (cancelAt : Option Nat) (destroyFails : Bool) : UFOutcome :=
  runChunks chunk_size fsize cancelAt destroyFails
    (checkpoints read_size chunk_size fsize) 0

inductive CancelCallResult where
  /-- The returned promise is rejected immediately. -/
  | rejected (msg : String)
  /-- The returned promise stays pending until `upload_file` observes the
  marker and invokes the stored resolver. -/
  | pending
deriving Repr, DecidableEq

structure FUCancelState where
  uploading : Bool
  cancel_cb : Bool
deriving Repr, DecidableEq

/-- Model of `FileUploader.cancel` (lines 321-327), translated faithfully including
the missing `return` after `reject(...)`: the promise is rejected when
`uploading` is false, but the executor continues and stores the resolver in
`cancel_cb` in every case. -/
def FileUploader.cancel (st : FUCancelState) : CancelCallResult × FUCancelState :=
  (if st.uploading then .pending
   else .rejected "Not uploading. Have you ran upload_file yet?",
   { st with cancel_cb := true })

/-- Cancellation behaviour of `runChunks`, relative form: with the marker
pending from checkpoint `c ≥ k` on and `c - k` within the list, the run
uploads exactly the first `c - k` chunks, reports `c - k + 1` progress
values, calls `destroy()` once, and — when `destroy()` succeeds — rejects
with "CANCELLED", resolves and clears the stored `cancel_cb`, and leaves
`uploading` true; when `destroy()` fails the run hangs. -/
theorem runChunks_cancel (chunk_size fsize : Nat) (destroyFails : Bool)
    (l : List (Nat × Nat × Nat)) (k c : Nat) (hk : k ≤ c)
    (hc : c - k < l.length) :
    (runChunks chunk_size fsize (some c) destroyFails l k).chunkSizes.length = c - k
    ∧ (runChunks chunk_size fsize (some c) destroyFails l k).progress.length = c - k + 1
    ∧ (runChunks chunk_size fsize (some c) destroyFails l k).destroyCalls = 1
    ∧ (runChunks chunk_size fsize (some c) destroyFails l k).uploading = true
    ∧ (destroyFails = false →
        (runChunks chunk_size fsize (some c) destroyFails l k).result = .cancelled
        ∧ (runChunks chunk_size fsize (some c) destroyFails l k).cancelResolved = true
        ∧ (runChunks chunk_size fsize (some c) destroyFails l k).cancel_cb = false)
    ∧ (destroyFails = true →
        (runChunks chunk_size fsize (some c) destroyFails l k).result = .hung) := by
  induction l generalizing k with
  | nil => simp at hc
  | cons hd rest ih =>
    obtain ⟨i, sliceLen, f⟩ := hd
    by_cases hck : c ≤ k
    · have hkc : c = k := by omega
      subst hkc
      cases destroyFails <;>
        simp [runChunks]
    · have hk1 : k + 1 ≤ c := by omega
      have hc1 : c - (k + 1) < rest.length := by
        simp only [List.length_cons] at hc
        omega
      have hrec := ih (k + 1) hk1 hc1
      have hpend : ¬ c ≤ k := hck
      have hstep : runChunks chunk_size fsize (some c) destroyFails
          ((i, sliceLen, f) :: rest) k
          = ⟨(runChunks chunk_size fsize (some c) destroyFails rest (k + 1)).result,
             (runChunks chunk_size fsize (some c) destroyFails rest (k + 1)).uploading,
             (runChunks chunk_size fsize (some c) destroyFails rest (k + 1)).cancel_cb,
             (min (f + chunk_size) sliceLen - f)
               :: (runChunks chunk_size fsize (some c) destroyFails rest (k + 1)).chunkSizes,
             (((i : ℚ) + (f : ℚ)) / (fsize : ℚ))
               :: (runChunks chunk_size fsize (some c) destroyFails rest (k + 1)).progress,
             (runChunks chunk_size fsize (some c) destroyFails rest (k + 1)).destroyCalls,
             (runChunks chunk_size fsize (some c) destroyFails rest (k + 1)).cancelResolved⟩ := by
        simp [runChunks, hpend]
      rw [hstep]
      obtain ⟨e1, e2, e3, e4, e5, e6⟩ := hrec
      refine ⟨?_, ?_, e3, e4, e5, e6⟩
      · simp [e1]
        omega
      · simp [e2]
        omega

/-- C3 counterexample: Concrete refutation of the claim as stated:
file of 4 bytes, `read_size = 2`, `chunk_size = 1`.  (a) With cancellation
pending from checkpoint 1 and `destroy()` succeeding, `upload_file` rejects
with "CANCELLED" — but the `uploading` flag is still `true` after it exits
(the flag is only cleared on the success path, which the rejection skips),
contradicting the claim's "the uploading flag is false after upload_file
exits by this path".  (b) With `destroy()` failing, the rejection is not
suppressed — `.catch()` with no argument has no handler — and the transfer
hangs instead of rejecting with "CANCELLED". -/
theorem upload_file_cancel_leaves_uploading_true :
    (FileUploader.upload_file 2 1 4 (some 1) false).result = .cancelled
    ∧ (FileUploader.upload_file 2 1 4 (some 1) false).uploading = true
    ∧ (FileUploader.upload_file 2 1 4 (some 0) true).result = .hung
    ∧ (FileUploader.upload_file 2 1 4 (some 0) true).cancelResolved = false := by
  decide

/-- C3 as amended: Whenever `upload_file` observes a pending cancellation
at a per-chunk checkpoint (checkpoint `c`, within the run), it calls
`destroy()` exactly once and uploads no further chunks (exactly the `c`
chunks before the checkpoint were uploaded).  If `destroy()` succeeds, the
pending `cancel()` promise is resolved, the marker is cleared, and the
transfer rejects with the distinguished "CANCELLED" failure — but the
`uploading` flag remains `true` after this exit (it is cleared only on
normal completion).  If `destroy()` fails, the error is not suppressed and
the transfer hangs instead. -/
theorem upload_file_cancel_behaviour (read_size chunk_size fsize c : Nat)
    (destroyFails : Bool)
    (hc : c < (checkpoints read_size chunk_size fsize).length) :
    (FileUploader.upload_file read_size chunk_size fsize (some c)
        destroyFails).chunkSizes.length = c
    ∧ (FileUploader.upload_file read_size chunk_size fsize (some c)
        destroyFails).destroyCalls = 1
    ∧ (FileUploader.upload_file read_size chunk_size fsize (some c)
        destroyFails).uploading = true
    ∧ (destroyFails = false →
        (FileUploader.upload_file read_size chunk_size fsize (some c)
            destroyFails).result = .cancelled
        ∧ (FileUploader.upload_file read_size chunk_size fsize (some c)
            destroyFails).cancelResolved = true
        ∧ (FileUploader.upload_file read_size chunk_size fsize (some c)
            destroyFails).cancel_cb = false)
    ∧ (destroyFails = true →
        (FileUploader.upload_file read_size chunk_size fsize (some c)
            destroyFails).result = .hung) := by
  have h := runChunks_cancel chunk_size fsize destroyFails
    (checkpoints read_size chunk_size fsize) 0 c (Nat.zero_le c) (by simpa using hc)
  obtain ⟨e1, _e2, e3, e4, e5, e6⟩ := h
  exact ⟨by simpa using e1, e3, e4, e5, e6⟩

/-- Witness for C3 (amended): 6-byte file, `read_size = 4`, `chunk_size = 2`,
cancellation pending from checkpoint 2, `destroy()` succeeding. -/
theorem upload_file_cancel_behaviour_witness :
    2 < (checkpoints 4 2 6).length
    ∧ (FileUploader.upload_file 4 2 6 (some 2) false).chunkSizes.length = 2
    ∧ (FileUploader.upload_file 4 2 6 (some 2) false).destroyCalls = 1
    ∧ (FileUploader.upload_file 4 2 6 (some 2) false).uploading = true
    ∧ (FileUploader.upload_file 4 2 6 (some 2) false).result = .cancelled
    ∧ (FileUploader.upload_file 4 2 6 (some 2) false).cancelResolved = true
    ∧ (FileUploader.upload_file 4 2 6 (some 2) false).cancel_cb = false :=
  ⟨by decide,
   (upload_file_cancel_behaviour 4 2 6 2 false (by decide)).1,
   (upload_file_cancel_behaviour 4 2 6 2 false (by decide)).2.1,
   (upload_file_cancel_behaviour 4 2 6 2 false (by decide)).2.2.1,
   ((upload_file_cancel_behaviour 4 2 6 2 false (by decide)).2.2.2.1 rfl).1,
   ((upload_file_cancel_behaviour 4 2 6 2 false (by decide)).2.2.2.1 rfl).2.1,
   ((upload_file_cancel_behaviour 4 2 6 2 false (by decide)).2.2.2.1 rfl).2.2⟩

/-- C5, evaluated at the failing input: `cancel()` while `uploading` is
false does reject immediately with the "not uploading" condition, but —
because the executor keeps running after `reject(...)` — it still records
the pending-cancellation marker in `cancel_cb`.  (While uploading, the
promise is left pending and the marker is recorded, as the claim says.) -/
theorem cancel_records_marker_when_not_uploading :
    FileUploader.cancel ⟨false, false⟩
      = (.rejected "Not uploading. Have you ran upload_file yet?", ⟨false, true⟩)
    ∧ FileUploader.cancel ⟨true, false⟩ = (.pending, ⟨true, true⟩) := by
  constructor <;> rfl

/-- C7: For a 5,000,000-byte source with `read_size` 2,000,000 and
`chunk_size` 1,000,000 (both mapped through the constructor's `||`-default
logic), `upload_file` performs exactly 3 outer slice reads of sizes
2,000,000, 2,000,000, 1,000,000 and exactly 5 chunk uploads of 1,000,000
bytes each, invoking `on_progress` immediately before each chunk with the
fractions 0, 1/5, 2/5, 3/5, 4/5 in that order, and completes normally. -/
theorem upload_file_five_million_trace :
    resolve_read_size (some 2000000) = 2000000
    ∧ resolve_chunk_size (some 1000000) = 1000000
    ∧ sliceReads 2000000 5000000 = [2000000, 2000000, 1000000]
    ∧ (FileUploader.upload_file 2000000 1000000 5000000 none false).chunkSizes
      = [1000000, 1000000, 1000000, 1000000, 1000000]
    ∧ (FileUploader.upload_file 2000000 1000000 5000000 none false).progress
      = [0, 1 / 5, 2 / 5, 3 / 5, 4 / 5]
    ∧ (FileUploader.upload_file 2000000 1000000 5000000 none false).result
      = .success := by
  refine ⟨rfl, rfl, by decide, by decide, ?_, by decide⟩
  norm_num [FileUploader.upload_file, checkpoints, loopOffsets, runChunks,
    List.range_succ]

/-! ## FileUploaderQueued (src/index.ts lines 342-450)

Jobs are modelled by their outcome oracle `JobSpec`: whether `begin`,
`upload_file` and `finish` succeed or reject (and with what value), and
whether the job's own `then` callback throws.  The observable behaviour is
the trace of callback invocations (`Ev`).  `add_job` only enqueues here; the
`work()` trigger inside it is modelled by running `work` after the
submissions — the `running++ === 0` guard makes any trigger during an active
loop a no-op, so the jobs processed and the callback order are the same. -/

structure JobSpec where
  /-- `some e`: `begin(job.ext, job.name)` rejects with `e`. -/
  beginR : Option String
  /-- `some e`: `upload_file(job.file, job.on_progress)` rejects with `e`
  ("CANCELLED" for a cancellation abort). -/
  uploadR : Option String
  /-- `some e`: `finish()` rejects with `e`. -/
  finishR : Option String
  /-- `some v`: the job's `then` callback throws `v` after being invoked. -/
  thenThrows : Option String
deriving Repr, DecidableEq

/-- A callback invocation on a job. -/
inductive Ev where
  | evThen (id : Nat)
  | evCatch (id : Nat) (err : String)
  | evFinally (id : Nat)
deriving Repr, DecidableEq

/-- The try-block of one `work` iteration (lines 436-440):
`await begin` → `await upload_file` → `await finish().then(job.then)`.
Returns the callback events emitted inside the block and the error (if any)
that escapes to the `catch`.  The `then` callback is invoked only when
`finish` succeeded, and a value it throws escapes the `await`. -/
def runTry (id : Nat) (s : JobSpec) : List Ev × Option String :=
  match s.beginR with
  | some e => ([], some e)
  | none =>
    match s.uploadR with
    | some e => ([], some e)
    | none =>
      match s.finishR with
      | some e => ([], some e)
      | none =>
        match s.thenThrows with
        | some v => ([Ev.evThen id], some v)
        | none => ([Ev.evThen id], none)

/-- One full iteration of the worker loop for job `id` (lines 436-444):
try-block, `job.catch(e)` on failure, `job.finally()` in both outcomes. -/
def processJob (id : Nat) (s : JobSpec) : List Ev :=
  let r := runTry id s
  r.1 ++ (match r.2 with | some e => [Ev.evCatch id e] | none => [])
    ++ [Ev.evFinally id]

structure WorkLoopResult where
  events : List Ev
  queueLeft : List Nat
  jobs : List (Nat × JobSpec)
  active : Int
deriving Repr, DecidableEq

/-- The `while (this.queue.length > 0)` loop of `work` (lines 431-445):
shift the head id, mark it `active`, read and delete its job record,
process it, continue.  When the shifted id has no job record — impossible
for `add_job`-constructed states — the JS code would crash reading
`job.ext`, aborting the loop; the model stops there. -/
def workLoop : List Nat → List (Nat × JobSpec) → Int → WorkLoopResult
  | [], jobs, active => ⟨[], [], jobs, active⟩
  | id :: rest, jobs, _ =>
    match jobs.lookup id with
    | none => ⟨[], rest, jobs, (id : Int)⟩
    | some s =>
      let jobs' := jobs.filter fun p => p.1 ≠ id
      let r := workLoop rest jobs' (id : Int)
      ⟨processJob id s ++ r.events, r.queueLeft, r.jobs, r.active⟩

/-- State of a `FileUploaderQueued` (fields of lines 343-348). -/
structure QState where
  jobs : List (Nat × JobSpec)
  queue : List Nat
  queue_index : Nat
  running : Nat
  active : Int
deriving Repr, DecidableEq

/-- A freshly constructed `FileUploaderQueued`: empty map and queue,
`queue_index = 0`, `running = 0`, `active = -1` (the "none" sentinel). -/
def initialQueue : QState := ⟨[], [], 0, 0, -1⟩

/-- Model of `add_job` (lines 394-402), minus the `work()` trigger (see section
comment): assign the next id, store the record, append to the queue. -/
def add_job (st : QState) (s : JobSpec) : Nat × QState :=
  (st.queue_index,
   { st with
      jobs := st.jobs ++ [(st.queue_index, s)]
      queue := st.queue ++ [st.queue_index]
      queue_index := st.queue_index + 1 })

/-- Submit a list of jobs in order. -/
def addJobs (st : QState) (specs : List JobSpec) : QState :=
  specs.foldl (fun s sp => (add_job s sp).2) st

/-- Model of `work` (lines 427-449): the `running++ === 0` guard admits one loop;
after the loop `running` is reset to 0, but `active` keeps the id of the
last job processed — the source never resets it to `-1`. -/
def work (st : QState) : List Ev × QState :=
  if st.running = 0 then
    let r := workLoop st.queue st.jobs st.active
    (r.events,
     { st with queue := r.queueLeft, jobs := r.jobs, running := 0,
               active := r.active })
  else ([], { st with running := st.running + 1 })

inductive CancelJobOutcome where
  /-- `id` is the current `active`: delegates to `FileUploader.cancel()`. -/
  | delegated
  /-- Pending job removed from map and queue; its callbacks never fire. -/
  | removed
  /-- Throws `Error("Job not found")`. -/
  | notFound
deriving Repr, DecidableEq

/-- Model of `cancel_job` (lines 416-425).  `queue.splice(queue.indexOf(id), 1)`
removes the first occurrence of `id` from the queue (for
`add_job`-constructed states the id is present whenever it is in the map,
so `indexOf` is non-negative). -/
def cancel_job (st : QState) (job_id : Nat) : CancelJobOutcome × QState :=
  if st.active = (job_id : Int) then (.delegated, st)
  else
    match st.jobs.lookup job_id with
    | none => (.notFound, st)
    | some _ =>
      (.removed,
       { st with jobs := st.jobs.filter fun p => p.1 ≠ job_id
                 queue := st.queue.erase job_id })

theorem lookup_filter_ne (jobs : List (Nat × JobSpec)) (a b : Nat)
    (h : a ≠ b) :
    (jobs.filter fun p => p.1 ≠ b).lookup a = jobs.lookup a := by
  induction jobs with
  | nil => rfl
  | cons hd tl ih =>
    obtain ⟨k, v⟩ := hd
    simp only [decide_not] at ih
    by_cases hk : k = b
    · subst hk
      have hbeq : (a == k) = false := by simp [h]
      simp [List.filter_cons, List.lookup, hbeq, ih, h]
    · by_cases hak : a = k
      · subst hak
        simp [List.filter_cons, List.lookup, hk]
      · have hbeq : (a == k) = false := by simp [hak]
        simp [List.filter_cons, List.lookup, hk, hbeq, ih]

/-- The callback trace of the worker loop is the concatenation, in queue
order, of each job's `processJob` events. -/
theorem workLoop_events (queue : List Nat) (jobs : List (Nat × JobSpec))
    (a : Int) (hnodup : queue.Nodup)
    (hpres : ∀ id ∈ queue, (jobs.lookup id).isSome) :
    (workLoop queue jobs a).events
      = queue.flatMap fun id =>
          match jobs.lookup id with
          | some s => processJob id s
          | none => [] := by
  induction queue generalizing jobs a with
  | nil => simp [workLoop]
  | cons id rest ih =>
    have hid : (jobs.lookup id).isSome := hpres id (by simp)
    rcases hs : jobs.lookup id with _ | s
    · rw [hs] at hid
      simp at hid
    · have hnotmem : id ∉ rest := (List.nodup_cons.1 hnodup).1
      have hnodup' : rest.Nodup := (List.nodup_cons.1 hnodup).2
      have hpres' : ∀ id' ∈ rest,
          ((jobs.filter fun p => p.1 ≠ id).lookup id').isSome := by
        intro id' hm
        have hne : id' ≠ id := fun he => hnotmem (he ▸ hm)
        rw [lookup_filter_ne _ _ _ hne]
        exact hpres id' (by simp [hm])
      have hstep : (workLoop (id :: rest) jobs a).events
          = processJob id s
            ++ (workLoop rest (jobs.filter fun p => p.1 ≠ id) (id : Int)).events := by
        simp [workLoop, hs]
      rw [hstep, ih _ _ hnodup' hpres']
      have hsame : (rest.flatMap fun id' =>
            match (jobs.filter fun p => p.1 ≠ id).lookup id' with
            | some s' => processJob id' s'
            | none => [])
          = rest.flatMap fun id' =>
              match jobs.lookup id' with
              | some s' => processJob id' s'
              | none => [] := by
        unfold List.flatMap
        congr 1
        apply List.map_congr_left
        intro id' hm
        have hne : id' ≠ id := fun he => hnotmem (he ▸ hm)
        rw [lookup_filter_ne _ _ _ hne]
      rw [hsame, List.flatMap_cons, hs]

/-- After the loop drains a non-empty queue, `active` holds the last
processed id. -/
theorem workLoop_active (queue : List Nat) (jobs : List (Nat × JobSpec))
    (a : Int) (lid : Nat) (hnodup : queue.Nodup)
    (hlast : queue.getLast? = some lid)
    (hpres : ∀ id ∈ queue, (jobs.lookup id).isSome) :
    (workLoop queue jobs a).active = (lid : Int) := by
  induction queue generalizing jobs a with
  | nil => simp at hlast
  | cons id rest ih =>
    have hid : (jobs.lookup id).isSome := hpres id (by simp)
    rcases hs : jobs.lookup id with _ | s
    · rw [hs] at hid
      simp at hid
    · have hnotmem : id ∉ rest := (List.nodup_cons.1 hnodup).1
      have hnodup' : rest.Nodup := (List.nodup_cons.1 hnodup).2
      have hpres' : ∀ id' ∈ rest,
          ((jobs.filter fun p => p.1 ≠ id).lookup id').isSome := by
        intro id' hm
        have hne : id' ≠ id := fun he => hnotmem (he ▸ hm)
        rw [lookup_filter_ne _ _ _ hne]
        exact hpres id' (by simp [hm])
      cases rest with
      | nil =>
        have : id = lid := by simpa using hlast
        subst this
        simp [workLoop, hs]
      | cons id2 rest2 =>
        have hlast' : (id2 :: rest2).getLast? = some lid := by
          rw [List.getLast?_cons_cons] at hlast
          exact hlast
        have : (workLoop (id :: id2 :: rest2) jobs a).active
            = (workLoop (id2 :: rest2)
                (jobs.filter fun p => p.1 ≠ id) (id : Int)).active := by
          simp [workLoop, hs]
        rw [this]
        exact ih _ _ hnodup' hlast' hpres'

/-- C4 counterexample: One successful job, submitted and processed to
completion: the active-job marker still holds that job's id `0` instead of
the `-1` sentinel, and `cancel_job 0` is treated as cancelling the active
job (delegating to `cancel()`) instead of failing with "Job not found". -/
theorem work_active_not_reset_counterexample :
    (work (addJobs initialQueue [⟨none, none, none, none⟩])).2.active = 0
    ∧ ¬ (work (addJobs initialQueue [⟨none, none, none, none⟩])).2.active = -1
    ∧ (cancel_job (work (addJobs initialQueue [⟨none, none, none, none⟩])).2 0).1
      = .delegated := by
  decide

/-- C4 as amended: When the job queue empties and the worker loop exits,
the reentrancy counter `running` is reset to 0, but the active-job marker is
NOT reset to the `-1` sentinel: it retains the id of the last processed job,
and `cancel_job` on that already-completed id is treated as the active job
(delegating to `FileUploader.cancel()`) rather than failing with the
job-not-found condition. -/
theorem work_keeps_last_job_active (st : QState) (lid : Nat)
    (hrun : st.running = 0) (hnodup : st.queue.Nodup)
    (hpres : ∀ i ∈ st.queue, (st.jobs.lookup i).isSome)
    (hlast : st.queue.getLast? = some lid) :
    (work st).2.active = (lid : Int)
    ∧ (work st).2.running = 0
    ∧ (cancel_job (work st).2 lid).1 = .delegated := by
  have hact : (workLoop st.queue st.jobs st.active).active = (lid : Int) :=
    workLoop_active st.queue st.jobs st.active lid hnodup hlast hpres
  have hw : (work st).2
      = { st with queue := (workLoop st.queue st.jobs st.active).queueLeft,
                  jobs := (workLoop st.queue st.jobs st.active).jobs,
                  running := 0,
                  active := (workLoop st.queue st.jobs st.active).active } := by
    simp [work, hrun]
  refine ⟨by rw [hw]; exact hact, by rw [hw], ?_⟩
  rw [hw]
  simp [cancel_job, hact]

/-- Witness for C4 (amended): two successful jobs 0 and 1; after the queue
drains, `active = 1`, `running = 0`, and `cancel_job 1` delegates. -/
theorem work_keeps_last_job_active_witness :
    (work (addJobs initialQueue
        [⟨none, none, none, none⟩, ⟨none, none, none, none⟩])).2.active = (1 : Int)
    ∧ (work (addJobs initialQueue
        [⟨none, none, none, none⟩, ⟨none, none, none, none⟩])).2.running = 0
    ∧ (cancel_job (work (addJobs initialQueue
        [⟨none, none, none, none⟩, ⟨none, none, none, none⟩])).2 1).1
      = .delegated :=
  work_keeps_last_job_active
    (addJobs initialQueue [⟨none, none, none, none⟩, ⟨none, none, none, none⟩])
    1 (by decide) (by decide) (by decide) (by decide)

/-- C8: Jobs A, B, C submitted in that order (ids 0, 1, 2), every step
of every job succeeding: the callback trace is exactly
then(A), finally(A), then(B), finally(B), then(C), finally(C) — completion
callbacks fire in submission order, none skipped, and no job's callbacks
interleave with another job's processing. -/
theorem fifo_callbacks_in_order (sa sb sc : JobSpec)
    (ha : sa = ⟨none, none, none, none⟩)
    (hb : sb = ⟨none, none, none, none⟩)
    (hc : sc = ⟨none, none, none, none⟩) :
    (work (addJobs initialQueue [sa, sb, sc])).1
      = [Ev.evThen 0, Ev.evFinally 0, Ev.evThen 1, Ev.evFinally 1,
         Ev.evThen 2, Ev.evFinally 2] := by
  subst ha hb hc
  decide

/-- Witness for C8 at the concrete all-success specs. -/
theorem fifo_callbacks_in_order_witness :
    (work (addJobs initialQueue
        [⟨none, none, none, none⟩, ⟨none, none, none, none⟩,
         ⟨none, none, none, none⟩])).1
      = [Ev.evThen 0, Ev.evFinally 0, Ev.evThen 1, Ev.evFinally 1,
         Ev.evThen 2, Ev.evFinally 2] :=
  fifo_callbacks_in_order _ _ _ rfl rfl rfl

theorem processJob_shape (id : Nat) (s : JobSpec) :
    processJob id s = [Ev.evThen id, Ev.evFinally id]
    ∨ (∃ e, processJob id s = [Ev.evCatch id e, Ev.evFinally id])
    ∨ (∃ e, processJob id s = [Ev.evThen id, Ev.evCatch id e, Ev.evFinally id]) := by
  obtain ⟨b, u, f, t⟩ := s
  cases b with
  | some e => exact Or.inr (Or.inl ⟨e, rfl⟩)
  | none =>
    cases u with
    | some e => exact Or.inr (Or.inl ⟨e, rfl⟩)
    | none =>
      cases f with
      | some e => exact Or.inr (Or.inl ⟨e, rfl⟩)
      | none =>
        cases t with
        | some v => exact Or.inr (Or.inr ⟨v, rfl⟩)
        | none => exact Or.inl rfl

theorem count_evFinally_processJob (id id' : Nat) (s : JobSpec) :
    (processJob id' s).count (Ev.evFinally id) = if id' = id then 1 else 0 := by
  rcases processJob_shape id' s with h | ⟨e, h⟩ | ⟨e, h⟩ <;> rw [h] <;>
    by_cases hid : id' = id <;>
      simp [hid, List.count_cons, List.count_nil]

theorem count_evFinally_flatMap_zero (id : Nat) (queue : List Nat)
    (jobs : List (Nat × JobSpec)) (h : id ∉ queue) :
    (queue.flatMap fun id' =>
        match jobs.lookup id' with
        | some s => processJob id' s
        | none => []).count (Ev.evFinally id) = 0 := by
  induction queue with
  | nil => simp
  | cons id0 rest ih =>
    have h0 : id0 ≠ id := fun he => h (by simp [he])
    have hrest : id ∉ rest := fun hm => h (by simp [hm])
    rw [List.flatMap_cons, List.count_append, ih hrest]
    rcases jobs.lookup id0 with _ | s
    · simp
    · rw [count_evFinally_processJob id id0 s]
      simp [h0]

theorem count_evFinally_flatMap_one (id : Nat) (queue : List Nat)
    (jobs : List (Nat × JobSpec)) (hnodup : queue.Nodup) (hid : id ∈ queue)
    (hpres : ∀ i ∈ queue, (jobs.lookup i).isSome) :
    (queue.flatMap fun id' =>
        match jobs.lookup id' with
        | some s => processJob id' s
        | none => []).count (Ev.evFinally id) = 1 := by
  induction queue with
  | nil => simp at hid
  | cons id0 rest ih =>
    have hnotmem : id0 ∉ rest := (List.nodup_cons.1 hnodup).1
    have hnodup' : rest.Nodup := (List.nodup_cons.1 hnodup).2
    rw [List.flatMap_cons, List.count_append]
    by_cases h0 : id0 = id
    · subst h0
      have hrest : id0 ∉ rest := hnotmem
      rw [count_evFinally_flatMap_zero id0 rest jobs hrest]
      have hpres0 : (jobs.lookup id0).isSome := hpres id0 (by simp)
      rcases hs : jobs.lookup id0 with _ | s
      · rw [hs] at hpres0
        simp at hpres0
      · rw [count_evFinally_processJob id0 id0 s]
        simp
    · have hid' : id ∈ rest := by
        rcases List.mem_cons.1 hid with he | hm
        · exact absurd he.symm h0
        · exact hm
      have hpres' : ∀ i ∈ rest, (jobs.lookup i).isSome :=
        fun i hm => hpres i (by simp [hm])
      rw [ih hnodup' hid' hpres']
      rcases jobs.lookup id0 with _ | s
      · simp
      · rw [count_evFinally_processJob id id0 s]
        simp [h0]

/-- C9: For every job the worker loop starts processing — whatever its
outcome: success, failure at `begin`/`upload_file`/`finish`, a cancellation
abort, or its own `then` callback throwing — the job's `finally` callback is
invoked exactly once, immediately after either its completion (`then`)
callback or its error (`catch`) callback; and every queued job is processed
(each queued id gets its `finally`), i.e. the loop proceeds past each job. -/
theorem job_finally_exactly_once (st : QState) (id : Nat)
    (hrun : st.running = 0) (hnodup : st.queue.Nodup)
    (hpres : ∀ i ∈ st.queue, (st.jobs.lookup i).isSome)
    (hid : id ∈ st.queue) :
    (work st).1.count (Ev.evFinally id) = 1
    ∧ ∃ l r, (work st).1 = l ++ [Ev.evThen id, Ev.evFinally id] ++ r
        ∨ ∃ e, (work st).1 = l ++ [Ev.evCatch id e, Ev.evFinally id] ++ r := by
  have hev : (work st).1
      = st.queue.flatMap fun id' =>
          match st.jobs.lookup id' with
          | some s => processJob id' s
          | none => [] := by
    simp only [work, hrun, if_pos]
    exact workLoop_events st.queue st.jobs st.active hnodup hpres
  constructor
  · rw [hev]
    exact count_evFinally_flatMap_one id st.queue st.jobs hnodup hid hpres
  · obtain ⟨q1, q2, hq⟩ := List.append_of_mem hid
    have hpresid : (st.jobs.lookup id).isSome := hpres id hid
    rcases hs : st.jobs.lookup id with _ | s
    · rw [hs] at hpresid
      simp at hpresid
    · have hsplit : (work st).1
          = (q1.flatMap fun id' =>
              match st.jobs.lookup id' with
              | some s' => processJob id' s'
              | none => [])
            ++ processJob id s
            ++ (q2.flatMap fun id' =>
                match st.jobs.lookup id' with
                | some s' => processJob id' s'
                | none => []) := by
        rw [hev, hq]
        rw [List.flatMap_append, List.flatMap_cons, hs]
        simp [List.append_assoc]
      rcases processJob_shape id s with h | ⟨e, h⟩ | ⟨e, h⟩
      · refine ⟨q1.flatMap fun id' =>
            match st.jobs.lookup id' with
            | some s' => processJob id' s'
            | none => [],
          q2.flatMap fun id' =>
            match st.jobs.lookup id' with
            | some s' => processJob id' s'
            | none => [], Or.inl ?_⟩
        rw [hsplit, h]
      · refine ⟨q1.flatMap fun id' =>
            match st.jobs.lookup id' with
            | some s' => processJob id' s'
            | none => [],
          q2.flatMap fun id' =>
            match st.jobs.lookup id' with
            | some s' => processJob id' s'
            | none => [], Or.inr ⟨e, ?_⟩⟩
        rw [hsplit, h]
      · refine ⟨(q1.flatMap fun id' =>
            match st.jobs.lookup id' with
            | some s' => processJob id' s'
            | none => []) ++ [Ev.evThen id],
          q2.flatMap fun id' =>
            match st.jobs.lookup id' with
            | some s' => processJob id' s'
            | none => [], Or.inr ⟨e, ?_⟩⟩
        rw [hsplit, h]
        simp [List.append_assoc]

/-- Witness for C9: two jobs — one failing at `begin`, one succeeding — and
job 0 gets its `finally` exactly once, right after its `catch`. -/
theorem job_finally_exactly_once_witness :
    (work (addJobs initialQueue
        [⟨some "boom", none, none, none⟩, ⟨none, none, none, none⟩])).1.count
      (Ev.evFinally 0) = 1
    ∧ ∃ l r, (work (addJobs initialQueue
        [⟨some "boom", none, none, none⟩, ⟨none, none, none, none⟩])).1
          = l ++ [Ev.evThen 0, Ev.evFinally 0] ++ r
        ∨ ∃ e, (work (addJobs initialQueue
            [⟨some "boom", none, none, none⟩, ⟨none, none, none, none⟩])).1
          = l ++ [Ev.evCatch 0 e, Ev.evFinally 0] ++ r :=
  job_finally_exactly_once
    (addJobs initialQueue
      [⟨some "boom", none, none, none⟩, ⟨none, none, none, none⟩])
    0 (by decide) (by decide) (by decide) (by decide)

/-- C10: A job whose `begin`, `upload_file` and `finish` all succeed but
whose own `then` callback throws `v`: the `await finish().then(job.then)`
inside the try-block rethrows `v`, so the same job's `catch` callback is
invoked with `v`, and its `finally` callback still runs afterwards. -/
theorem then_throw_routed_to_catch (s : JobSpec) (v : String)
    (hb : s.beginR = none) (hu : s.uploadR = none) (hf : s.finishR = none)
    (ht : s.thenThrows = some v) :
    (work (addJobs initialQueue [s])).1
      = [Ev.evThen 0, Ev.evCatch 0 v, Ev.evFinally 0] := by
  obtain ⟨b, u, f, t⟩ := s
  simp only at hb hu hf ht
  subst hb hu hf ht
  rfl

/-- Witness for C10 at a concrete throwing `then` callback. -/
theorem then_throw_routed_to_catch_witness :
    (work (addJobs initialQueue [⟨none, none, none, some "callback blew up"⟩])).1
      = [Ev.evThen 0, Ev.evCatch 0 "callback blew up", Ev.evFinally 0] :=
  then_throw_routed_to_catch _ "callback blew up" rfl rfl rfl rfl

end KekUpload
